import Mathlib

/-!
Verification of the mcp-manager gateway core against its specification.

The definitions below are a shallow embedding of the repository's Rust
source: the canonical conversation model and orchestration loop from
src/lib.rs and src/models/mod.rs, the Gemini adapter translation from
src/models/gemini.rs, the credential manager from src/models/client.rs
and src/error.rs, and the tool filtering from src/mcp.rs and
src/config.rs. External capabilities (the model adapter, the MCP tool
servers, the HTTP transport, the clock, the OAuth2 token endpoint) are
passed in as function parameters, mirroring the trait objects and I/O
boundaries of the source.
-/

/-- A JSON value, standing in for serde_json::Value / rmcp JsonObject.
Objects are ordered association lists, matching the ordered map used by
the source. -/
inductive Json where
  | null : Json
  | bool (b : Bool) : Json
  | num (n : Int) : Json
  | str (s : String) : Json
  | arr (elems : List Json) : Json
  | obj (entries : List (String × Json)) : Json
deriving Repr

/-- src/mcp.rs ToolCall: {name, id, arguments: Option<JsonObject>}. -/
structure ToolCall where
  name : String
  id : String
  arguments : Option (List (String × Json))
deriving Repr

/-- src/models/mod.rs Role. -/
inductive Role where
  | assistant
  | system
  | tool
  | user
deriving Repr, DecidableEq

/-- src/models/mod.rs ToolOutputType: single variant FunctionCallOutput. -/
inductive ToolOutputType where
  | functionCallOutput
deriving Repr, DecidableEq

/-- src/models/mod.rs Message: TextMessage{role, content} |
ToolCalls{role, tool_calls} | ToolOutput{type, call_id, output}. -/
inductive Message where
  | textMessage (role : Role) (content : String)
  | toolCalls (role : Role) (tool_calls : List ToolCall)
  | toolOutput (ty : ToolOutputType) (call_id : String) (output : String)
deriving Repr

/-- src/models/mod.rs ModelDecision. -/
inductive ModelDecision where
  | textMessage (content : String)
  | toolCalls (calls : List ToolCall)
deriving Repr

/-- src/lib.rs ManagerBody: the conversation plus generation parameters. -/
structure ManagerBody where
  messages : List Message
  temperature : Option Float := none
  max_tokens : Option Int := none
  top_p : Option Float := none

/-- src/lib.rs ManagerBody::append_message: push onto the message list. -/
def ManagerBody.append_message (body : ManagerBody) (message : Message) : ManagerBody :=
  { body with messages := body.messages ++ [message] }

/-- src/error.rs Error: {status, message}, the structured HTTP error. -/
structure Error where
  status : Nat
  message : String
deriving Repr, DecidableEq

/-- The catalog built in workspace_handler (src/lib.rs lines 75-85): a
name-to-provider map. A provider is abstracted as the McpServer::call
capability: a tool call either yields a text payload or a transport
failure (rmcp ServiceError, carried here as Unit). -/
def McpCatalog : Type := String → Option (ToolCall → Except Unit String)

/-- The body of the per-call dispatch in workspace_handler (src/lib.rs
lines 111-122): resolve the call name in the catalog; unknown name
yields the error string as the output; known name invokes the server,
a failure becoming the 500 "Internal server error". -/
def callOutput (mcp_calls : McpCatalog) (call : ToolCall) : Except Error String :=
  match mcp_calls call.name with
  | some server =>
      match server call with
      | Except.ok s => Except.ok s
      | Except.error _ => Except.error ⟨500, "Internal server error"⟩
  | none => Except.ok "Function doesn't exist"

/-- The for-loop over one decision's calls (src/lib.rs lines 108-129):
each call appends one ToolOutput message carrying its call id, in call
order; a failed dispatch aborts with the error. -/
def runCalls (mcp_calls : McpCatalog) (body : ManagerBody) :
    List ToolCall → Except Error ManagerBody
  | [] => Except.ok body
  | call :: rest =>
      match callOutput mcp_calls call with
      | Except.ok out =>
          runCalls mcp_calls
            (body.append_message (Message.toolOutput ToolOutputType.functionCallOutput call.id out))
            rest
      | Except.error e => Except.error e

/-- The for-loop over one turn's decisions (src/lib.rs lines 98-138):
a ToolCalls decision appends the assistant ToolCalls message, sets the
tool_call flag, and dispatches its calls; a TextMessage decision appends
an assistant text message. Returns the updated body and the flag. -/
def processDecisions (mcp_calls : McpCatalog) :
    List ModelDecision → ManagerBody → Bool → Except Error (ManagerBody × Bool)
  | [], body, tool_call => Except.ok (body, tool_call)
  | ModelDecision.toolCalls calls :: rest, body, _ =>
      match runCalls mcp_calls (body.append_message (Message.toolCalls Role.assistant calls)) calls with
      | Except.ok body2 => processDecisions mcp_calls rest body2 true
      | Except.error e => Except.error e
  | ModelDecision.textMessage content :: rest, body, tool_call =>
      processDecisions mcp_calls rest
        (body.append_message (Message.textMessage Role.assistant content)) tool_call

/-- The agent loop of workspace_handler (src/lib.rs lines 89-144),
with the model adapter abstracted as a function of the conversation and
an explicit fuel bound standing for the unbounded Rust loop: none means
the fuel ran out before the loop returned. -/
def workspaceLoop (model : ManagerBody → List ModelDecision) (mcp_calls : McpCatalog) :
    Nat → ManagerBody → Option (Except Error ManagerBody)
  | 0, _ => none
  | fuel + 1, body =>
      match processDecisions mcp_calls (model body) body false with
      | Except.error e => some (Except.error e)
      | Except.ok (body2, tool_call) =>
          if tool_call then workspaceLoop model mcp_calls fuel body2
          else some (Except.ok body2)

/-- The output string a successful dispatch of a call produces (the
value runCalls appends when it does not abort). -/
def okOutput (mcp_calls : McpCatalog) (call : ToolCall) : String :=
  match callOutput mcp_calls call with
  | Except.ok s => s
  | Except.error _ => ""

/-- The messages one decision appends on the success path of the loop
body: a text decision appends one assistant text message; a ToolCalls
decision with N calls appends the assistant ToolCalls message followed
by exactly N ToolOutput messages, in call order, each carrying the id
of its call. -/
def expandDecision (mcp_calls : McpCatalog) : ModelDecision → List Message
  | ModelDecision.textMessage content => [Message.textMessage Role.assistant content]
  | ModelDecision.toolCalls calls =>
      Message.toolCalls Role.assistant calls ::
        calls.map (fun c =>
          Message.toolOutput ToolOutputType.functionCallOutput c.id (okOutput mcp_calls c))

/-- Concatenation of expandDecision over a turn's decision list. -/
def expandDecisions (mcp_calls : McpCatalog) : List ModelDecision → List Message
  | [] => []
  | d :: rest => expandDecision mcp_calls d ++ expandDecisions mcp_calls rest

/-- Whether a decision is a text decision. -/
def isTextD : ModelDecision → Bool
  | ModelDecision.textMessage _ => true
  | ModelDecision.toolCalls _ => false

/-- src/models/gemini.rs Role: {model, function, user}. -/
inductive GRole where
  | model
  | function
  | user
deriving Repr, DecidableEq

/-- src/models/gemini.rs content part (named GPart here to avoid the
Mathlib name): text | functionCall{name, args} |
functionResponse{name, response:{name, content}}. The functionOutput
constructor carries the FunctionResponse name, the inner FunctionContent
name and the content. -/
inductive GPart where
  | text (text : String)
  | functionCall (name : String) (args : Option (List (String × Json)))
  | functionOutput (name : String) (responseName : String) (content : String)
deriving Repr

/-- src/models/gemini.rs Message: one content entry {role, parts}. -/
structure GMessage where
  role : GRole
  parts : List GPart
deriving Repr

/-- The FunctionOutput part built from a ToolOutput message in the
Gemini request translation (src/models/gemini.rs lines 70-91): both the
FunctionResponse name and the FunctionContent name are the call id. -/
def outputPart (call_id output : String) : GPart :=
  GPart.functionOutput call_id call_id output

/-- One step of the From<ManagerBody> for RequestBody translation
(src/models/gemini.rs lines 33-96). The state is the contents built so
far, most recent first, together with the last_output flag: in the Rust,
last_output is Some exactly when the previous message was a ToolOutput,
and then it points at the last content entry. Roles the Rust declares
unreachable yield none. -/
def geminiStep : List GMessage × Bool → Message → Option (List GMessage × Bool)
  | (contents, _), Message.textMessage role content =>
      match role with
      | Role.assistant => some (⟨GRole.model, [GPart.text content]⟩ :: contents, false)
      | Role.user => some (⟨GRole.user, [GPart.text content]⟩ :: contents, false)
      | _ => none
  | (contents, _), Message.toolCalls role tool_calls =>
      match role with
      | Role.assistant =>
          some (⟨GRole.model,
            tool_calls.map (fun call => GPart.functionCall call.name call.arguments)⟩ :: contents,
            false)
      | _ => none
  | (contents, last_output), Message.toolOutput _ call_id output =>
      if last_output then
        match contents with
        | last :: rest =>
            some ({ last with parts := last.parts ++ [outputPart call_id output] } :: rest, true)
        | [] => none
      else
        some (⟨GRole.function, [outputPart call_id output]⟩ :: contents, true)

/-- The fold of geminiStep over the message list. -/
def geminiFoldGo (s : List GMessage × Bool) : List Message → Option (List GMessage × Bool)
  | [] => some s
  | m :: rest =>
      match geminiStep s m with
      | some s2 => geminiFoldGo s2 rest
      | none => none

/-- The contents field of the Gemini RequestBody built from a
conversation (src/models/gemini.rs From<ManagerBody> for RequestBody). -/
def geminiContents (messages : List Message) : Option (List GMessage) :=
  (geminiFoldGo ([], false) messages).map (fun s => s.1.reverse)

/-- One turn of the Gemini response translation (src/models/gemini.rs
lines 270-303): walk the candidate's parts; a text part pushes a
TextMessage decision and clears last_call; a functionCall part appends
to the ToolCalls decision last_call points at, or pushes a fresh one.
part shapes the Rust declares unreachable yield none. The state holds
the decisions built so far, most recent first, the last_call flag (in
the Rust, last_call is Some exactly when the previous part was a
functionCall, and then it points at the last pushed ToolCalls decision)
and the index used to draw the next generated call id from ids. -/
def decisionsGo (ids : Nat → String) :
    List GPart → List ModelDecision → Bool → Nat → Option (List ModelDecision)
  | [], acc, _, _ => some acc.reverse
  | GPart.text text :: rest, acc, _, n =>
      decisionsGo ids rest (ModelDecision.textMessage text :: acc) false n
  | GPart.functionCall name args :: rest, acc, last_call, n =>
      if last_call then
        match acc with
        | ModelDecision.toolCalls calls :: acc2 =>
            decisionsGo ids rest
              (ModelDecision.toolCalls (calls ++ [⟨name, ids n, args⟩]) :: acc2) true (n + 1)
        | _ => none
      else
        decisionsGo ids rest
          (ModelDecision.toolCalls [⟨name, ids n, args⟩] :: acc) true (n + 1)
  | GPart.functionOutput _ _ _ :: _, _, _, _ => none

/-- The decision list Gemini::call extracts from an accepted STOP
candidate, with the random 24-character id generator abstracted as the
stream ids of fresh ids, drawn in part order. -/
def geminiDecisions (ids : Nat → String) (parts : List GPart) : Option (List ModelDecision) :=
  decisionsGo ids parts [] false 0

/-- The parts a decision came from: a text decision from one text part,
a ToolCalls decision from one functionCall part per call, in order. -/
def decToParts : ModelDecision → List GPart
  | ModelDecision.textMessage text => [GPart.text text]
  | ModelDecision.toolCalls calls =>
      calls.map (fun call => GPart.functionCall call.name call.arguments)

/-- Flattening a decision list back to candidate parts. -/
def partsOfDecisions : List ModelDecision → List GPart
  | [] => []
  | d :: rest => decToParts d ++ partsOfDecisions rest

/-- Whether a decision is a ToolCalls decision. -/
def isToolCallsD : ModelDecision → Bool
  | ModelDecision.toolCalls _ => true
  | ModelDecision.textMessage _ => false

/-- A ToolCalls decision holds at least one call. -/
def nonEmptyCalls : ModelDecision → Bool
  | ModelDecision.toolCalls calls => !calls.isEmpty
  | ModelDecision.textMessage _ => true

/-- Two neighbouring decisions are not both ToolCalls. -/
def NotBothCalls (a b : ModelDecision) : Prop :=
  ¬(isToolCallsD a = true ∧ isToolCallsD b = true)

/-- The head of the accumulator is not a ToolCalls decision (or the
accumulator is empty): the state invariant when last_call is unset. -/
def headNotCalls : List ModelDecision → Prop
  | [] => True
  | d :: _ => isToolCallsD d = false

mutual

/-- src/models/gemini.rs remove_keys: drop the two banned keys from the
object, then recurse into the values that are themselves objects.
Values that are arrays are not entered. -/
def remove_keys : List (String × Json) → List (String × Json)
  | [] => []
  | (k, v) :: rest =>
      if k = "$schema" || k = "additionalProperties" then remove_keys rest
      else (k, removeKeysValue v) :: remove_keys rest

/-- The inner traversal of remove_keys: only object values recurse. -/
def removeKeysValue : Json → Json
  | Json.obj entries => Json.obj (remove_keys entries)
  | v => v

end

/-- A key is one of the two the Gemini provider rejects. -/
def bannedKey (k : String) : Bool :=
  k = "$schema" || k = "additionalProperties"

mutual

/-- An object holds a banned key at some depth, arrays included. -/
def objHasBannedDeep : List (String × Json) → Bool
  | [] => false
  | (k, v) :: rest => bannedKey k || valueHasBannedDeep v || objHasBannedDeep rest

/-- A value holds a banned key at some depth, arrays included. -/
def valueHasBannedDeep : Json → Bool
  | Json.obj entries => objHasBannedDeep entries
  | Json.arr elems => arrHasBannedDeep elems
  | _ => false

/-- Some array element holds a banned key at some depth. -/
def arrHasBannedDeep : List Json → Bool
  | [] => false
  | v :: rest => valueHasBannedDeep v || arrHasBannedDeep rest

end

mutual

/-- An object holds a banned key at some depth reachable through
object values only (the depths remove_keys visits). -/
def objHasBannedObj : List (String × Json) → Bool
  | [] => false
  | (k, v) :: rest => bannedKey k || valueHasBannedObj v || objHasBannedObj rest

/-- A value holds a banned key at some object-only depth. -/
def valueHasBannedObj : Json → Bool
  | Json.obj entries => objHasBannedObj entries
  | _ => false

end

/-- reqwest failure surfaced by send() or text() in
src/models/client.rs: an optional HTTP status (reqwest attaches one
only to errors built by error_for_status, never called here) and a
message. -/
structure HttpFailure where
  status : Option Nat
  message : String
deriving Repr, DecidableEq

/-- An upstream HTTP exchange that completed: the response status and
the outcome of reading the body text. -/
structure HttpResponse where
  status : Nat
  body : Except HttpFailure String

/-- src/error.rs impl From<HttpError> for Error: take the error's
status if present, else 500; keep the message. -/
def errorFromHttp (e : HttpFailure) : Error :=
  ⟨match e.status with
    | some status => status
    | none => 500,
   e.message⟩

/-- The send-then-text sequence of ModelClient::call
(src/models/client.rs lines 168-177 and 214-221): a send failure or a
body-read failure propagates through From<HttpError>; a completed
exchange returns the body text whatever the status code is. -/
def sendAndRead (resp : Except HttpFailure HttpResponse) : Except Error String :=
  match resp with
  | Except.error e => Except.error (errorFromHttp e)
  | Except.ok r =>
      match r.body with
      | Except.ok s => Except.ok s
      | Except.error e => Except.error (errorFromHttp e)

/-- src/models/client.rs TokenData: the cached OAuth2 token and its
expiration instant, time modelled as an integer timestamp. -/
structure TokenData where
  token : String
  expiration : Int
deriving Repr, DecidableEq

/-- The critical section of the ClientCredentials arm of
ModelClient::call (src/models/client.rs lines 187-212): under the lock,
if the cached expiration is strictly earlier than now, perform the
token fetch (its outcome passed in as fetch), updating the cache, a
fetch failure becoming the 500 "Couldn't renew token"; otherwise keep
the cache. Returns the cache after the section, the bearer token read
out, and how many token-endpoint requests were made. -/
def oauthEnsureToken (fetch : Except Unit (String × Int)) (now : Int) (td : TokenData) :
    Except Error (TokenData × String × Nat) :=
  if td.expiration < now then
    match fetch with
    | Except.ok (t, e) => Except.ok (⟨t, e⟩, t, 1)
    | Except.error _ => Except.error ⟨500, "Couldn't renew token"⟩
  else
    Except.ok (td, td.token, 0)

/-- The whole ClientCredentials arm of ModelClient::call: run the
critical section, then issue the POST with the bearer token read under
the lock (post maps the bearer token to the HTTP outcome), reading the
body text. Returns the response text, the cache state after the call
and the number of token-endpoint requests. -/
def clientCredentialsCall (fetch : Except Unit (String × Int)) (now : Int) (td : TokenData)
    (post : String → Except HttpFailure HttpResponse) :
    Except Error (String × TokenData × Nat) :=
  match oauthEnsureToken fetch now td with
  | Except.error e => Except.error e
  | Except.ok (td2, token, n) =>
      match sendAndRead (post token) with
      | Except.ok s => Except.ok (s, td2, n)
      | Except.error e => Except.error e

/-- rmcp Tool as consumed by list_tools: the name is all the filter
reads. -/
structure RTool where
  name : String
  description : Option String
  input_schema : List (String × Json)
deriving Repr

/-- src/mcp.rs ToolFilter, with HashSet<String> carried as a list of
names. -/
inductive ToolFilter where
  | Include (names : List String)
  | Exclude (names : List String)
deriving Repr

/-- src/config.rs ToolFilterConfig, the parsed filter section. -/
inductive ToolFilterConfig where
  | IncludeC (names : List String)
  | ExcludeC (names : List String)
deriving Repr

/-- src/config.rs get_filter: a configured filter maps across; no
filter builds Exclude of the empty set. -/
def get_filter : Option ToolFilterConfig → ToolFilter
  | some (ToolFilterConfig.IncludeC names) => ToolFilter.Include names
  | some (ToolFilterConfig.ExcludeC names) => ToolFilter.Exclude names
  | none => ToolFilter.Exclude []

/-- src/mcp.rs McpServer::list_tools (lines 57-73): keep the tools the
filter passes — Exclude keeps names not in the set, Include keeps names
in the set. The tools argument stands for service.list_all_tools(). -/
def list_tools (filter : ToolFilter) (tools : List RTool) : List RTool :=
  tools.filter (fun tool =>
    match filter with
    | ToolFilter.Exclude exclusions => !exclusions.contains tool.name
    | ToolFilter.Include inclusions => inclusions.contains tool.name)

theorem runCalls_ok_messages (mcp_calls : McpCatalog) :
    ∀ (calls : List ToolCall) (body body2 : ManagerBody),
      runCalls mcp_calls body calls = Except.ok body2 →
      body2.messages = body.messages ++
        calls.map (fun c =>
          Message.toolOutput ToolOutputType.functionCallOutput c.id (okOutput mcp_calls c)) := by
  intro calls
  induction calls with
  | nil =>
      intro body body2 h
      simp [runCalls] at h
      simp [h]
  | cons call rest ih =>
      intro body body2 h
      simp only [runCalls] at h
      cases hco : callOutput mcp_calls call with
      | ok out =>
          rw [hco] at h
          have h2 := ih _ _ h
          simp [ManagerBody.append_message, okOutput, hco] at h2 ⊢
          simp [h2]
      | error e =>
          rw [hco] at h
          exact absurd h (by simp)

theorem processDecisions_ok_messages (mcp_calls : McpCatalog) :
    ∀ (ds : List ModelDecision) (body body2 : ManagerBody) (tc0 tc : Bool),
      processDecisions mcp_calls ds body tc0 = Except.ok (body2, tc) →
      body2.messages = body.messages ++ expandDecisions mcp_calls ds := by
  intro ds
  induction ds with
  | nil =>
      intro body body2 tc0 tc h
      simp [processDecisions] at h
      simp [expandDecisions, h.1]
  | cons d rest ih =>
      intro body body2 tc0 tc h
      cases d with
      | textMessage content =>
          simp only [processDecisions] at h
          have h2 := ih _ _ _ _ h
          simp [ManagerBody.append_message, expandDecisions, expandDecision] at h2 ⊢
          simp [h2]
      | toolCalls calls =>
          simp only [processDecisions] at h
          cases hrc : runCalls mcp_calls
              (body.append_message (Message.toolCalls Role.assistant calls)) calls with
          | ok bodyMid =>
              rw [hrc] at h
              have hmid := runCalls_ok_messages mcp_calls _ _ _ hrc
              have h2 := ih _ _ _ _ h
              simp [ManagerBody.append_message] at hmid
              simp [expandDecisions, expandDecision, h2, hmid]
          | error e =>
              rw [hrc] at h
              exact absurd h (by simp)

theorem processDecisions_all_text (mcp_calls : McpCatalog) :
    ∀ (ds : List ModelDecision) (body : ManagerBody) (tc : Bool),
      (∀ d ∈ ds, isTextD d = true) →
      processDecisions mcp_calls ds body tc =
        Except.ok ({ body with messages := body.messages ++ expandDecisions mcp_calls ds }, tc) := by
  intro ds
  induction ds with
  | nil =>
      intro body tc _
      simp [processDecisions, expandDecisions]
  | cons d rest ih =>
      intro body tc hall
      cases d with
      | textMessage content =>
          have hrest : ∀ d ∈ rest, isTextD d = true := by
            intro d hd
            exact hall d (List.mem_cons_of_mem _ hd)
          simp only [processDecisions]
          rw [ih _ tc hrest]
          simp [ManagerBody.append_message, expandDecisions, expandDecision]
      | toolCalls calls =>
          have := hall (ModelDecision.toolCalls calls) (List.mem_cons_self _ _)
          simp [isTextD] at this

/-- C1: on the success path of one model turn, the conversation after
the turn is the conversation before it plus expandDecisions, so a
ToolCalls decision with N calls contributes the assistant ToolCalls
message followed by exactly N ToolOutput messages, in call order, each
carrying the id of its call; and the loop hands exactly that
conversation to the next model invocation. -/
theorem c1_tool_calls_yield_matching_outputs
    (mcp_calls : McpCatalog) (ds : List ModelDecision) (body body2 : ManagerBody) (tc : Bool)
    (h : processDecisions mcp_calls ds body false = Except.ok (body2, tc)) :
    body2.messages = body.messages ++ expandDecisions mcp_calls ds ∧
    ∀ (model : ManagerBody → List ModelDecision) (fuel : Nat),
      model body = ds →
      workspaceLoop model mcp_calls (fuel + 1) body =
        (if tc then workspaceLoop model mcp_calls fuel body2 else some (Except.ok body2)) := by
  constructor
  · exact processDecisions_ok_messages mcp_calls ds body body2 false tc h
  · intro model fuel hm
    simp [workspaceLoop, hm, h]

/-- Witness for C1 at a turn carrying one ToolCalls decision with two
calls, the first resolving to a provider answering "out1", the second
unknown. -/
theorem c1_witness :
    (({ messages := [Message.toolCalls Role.assistant
          [⟨"f", "id1", none⟩, ⟨"g", "id2", none⟩],
        Message.toolOutput ToolOutputType.functionCallOutput "id1" "out1",
        Message.toolOutput ToolOutputType.functionCallOutput "id2" "Function doesn't exist"] }
      : ManagerBody).messages =
      ({ messages := [] } : ManagerBody).messages ++
        expandDecisions (fun name => if name = "f" then some (fun _ => Except.ok "out1") else none)
          [ModelDecision.toolCalls [⟨"f", "id1", none⟩, ⟨"g", "id2", none⟩]]) := by
  have h := c1_tool_calls_yield_matching_outputs
    (fun name => if name = "f" then some (fun _ => Except.ok "out1") else none)
    [ModelDecision.toolCalls [⟨"f", "id1", none⟩, ⟨"g", "id2", none⟩]]
    { messages := [] }
    { messages := [Message.toolCalls Role.assistant [⟨"f", "id1", none⟩, ⟨"g", "id2", none⟩],
        Message.toolOutput ToolOutputType.functionCallOutput "id1" "out1",
        Message.toolOutput ToolOutputType.functionCallOutput "id2" "Function doesn't exist"] }
    true rfl
  exact h.1

/-- C2: a first model response containing only TextMessage decisions
makes the loop return after that single model call, the response
conversation being the input plus the appended assistant text messages;
in general one loop iteration recurses exactly when the turn produced a
ToolCalls decision and returns the accumulated conversation on a
text-only turn. -/
theorem c2_loop_terminates_on_text_only
    (model : ManagerBody → List ModelDecision) (mcp_calls : McpCatalog)
    (body : ManagerBody) (fuel : Nat) :
    ((∀ d ∈ model body, isTextD d = true) →
      workspaceLoop model mcp_calls (fuel + 1) body =
        some (Except.ok
          { body with messages := body.messages ++ expandDecisions mcp_calls (model body) })) ∧
    (∀ body2, processDecisions mcp_calls (model body) body false = Except.ok (body2, true) →
      workspaceLoop model mcp_calls (fuel + 1) body = workspaceLoop model mcp_calls fuel body2) ∧
    (∀ body2, processDecisions mcp_calls (model body) body false = Except.ok (body2, false) →
      workspaceLoop model mcp_calls (fuel + 1) body = some (Except.ok body2)) := by
  refine ⟨?_, ?_, ?_⟩
  · intro hall
    simp [workspaceLoop, processDecisions_all_text mcp_calls (model body) body false hall]
  · intro body2 h
    simp [workspaceLoop, h]
  · intro body2 h
    simp [workspaceLoop, h]

/-- Witness for C2 at a model answering a single text decision: fuel 1
suffices and the response equals input plus one assistant message. -/
theorem c2_witness :
    workspaceLoop (fun _ => [ModelDecision.textMessage "hello"]) (fun _ => none) 1
      { messages := [Message.textMessage Role.user "hi"] } =
    some (Except.ok
      { messages := [Message.textMessage Role.user "hi",
                     Message.textMessage Role.assistant "hello"] }) := by
  have h := (c2_loop_terminates_on_text_only
    (fun _ => [ModelDecision.textMessage "hello"]) (fun _ => none)
    { messages := [Message.textMessage Role.user "hi"] } 0).1
    (by intro d hd; rw [List.mem_singleton] at hd; subst hd; rfl)
  simpa [expandDecisions, expandDecision] using h

/-- C5: a tool call whose name is not in the catalog does not abort the
request: its dispatch succeeds with the string "Function doesn't exist",
the turn appends a ToolOutput carrying that string and the call id, and
the next model invocation receives the conversation ending in it. -/
theorem c5_unknown_tool_is_recoverable
    (mcp_calls : McpCatalog) (call : ToolCall) (body : ManagerBody)
    (h : mcp_calls call.name = none) :
    callOutput mcp_calls call = Except.ok "Function doesn't exist" ∧
    processDecisions mcp_calls [ModelDecision.toolCalls [call]] body false =
      Except.ok
        ((body.append_message (Message.toolCalls Role.assistant [call])).append_message
          (Message.toolOutput ToolOutputType.functionCallOutput call.id "Function doesn't exist"),
         true) ∧
    ∀ (model : ManagerBody → List ModelDecision) (fuel : Nat),
      model body = [ModelDecision.toolCalls [call]] →
      workspaceLoop model mcp_calls (fuel + 1) body =
        workspaceLoop model mcp_calls fuel
          ((body.append_message (Message.toolCalls Role.assistant [call])).append_message
            (Message.toolOutput ToolOutputType.functionCallOutput call.id
              "Function doesn't exist")) := by
  have hco : callOutput mcp_calls call = Except.ok "Function doesn't exist" := by
    simp [callOutput, h]
  refine ⟨hco, ?_, ?_⟩
  · simp [processDecisions, runCalls, hco]
  · intro model fuel hm
    simp [workspaceLoop, hm, processDecisions, runCalls, hco]

/-- Witness for C5 at an empty catalog and a single unknown call. -/
theorem c5_witness :
    callOutput (fun _ => none) ⟨"ghost", "id9", none⟩ =
      Except.ok "Function doesn't exist" ∧
    processDecisions (fun _ => none) [ModelDecision.toolCalls [⟨"ghost", "id9", none⟩]]
      { messages := [] } false =
      Except.ok
        ((({ messages := [] } : ManagerBody).append_message
            (Message.toolCalls Role.assistant [⟨"ghost", "id9", none⟩])).append_message
          (Message.toolOutput ToolOutputType.functionCallOutput "id9" "Function doesn't exist"),
         true) := by
  have h := c5_unknown_tool_is_recoverable (fun _ => none) ⟨"ghost", "id9", none⟩
    { messages := [] } rfl
  exact ⟨h.1, h.2.1⟩

/-- C9: a call that resolves to a known provider whose invocation fails
aborts the whole request: the dispatch, the turn and the loop all end
with the 500 "Internal server error". -/
theorem c9_tool_failure_aborts_request
    (mcp_calls : McpCatalog) (call : ToolCall) (server : ToolCall → Except Unit String)
    (body : ManagerBody)
    (hres : mcp_calls call.name = some server) (hfail : server call = Except.error ()) :
    callOutput mcp_calls call = Except.error ⟨500, "Internal server error"⟩ ∧
    processDecisions mcp_calls [ModelDecision.toolCalls [call]] body false =
      Except.error ⟨500, "Internal server error"⟩ ∧
    ∀ (model : ManagerBody → List ModelDecision) (fuel : Nat),
      model body = [ModelDecision.toolCalls [call]] →
      workspaceLoop model mcp_calls (fuel + 1) body =
        some (Except.error ⟨500, "Internal server error"⟩) := by
  have hco : callOutput mcp_calls call = Except.error ⟨500, "Internal server error"⟩ := by
    simp [callOutput, hres, hfail]
  refine ⟨hco, ?_, ?_⟩
  · simp [processDecisions, runCalls, hco]
  · intro model fuel hm
    simp [workspaceLoop, hm, processDecisions, runCalls, hco]

/-- Witness for C9 at a catalog resolving "f" to a failing provider. -/
theorem c9_witness :
    callOutput (fun name => if name = "f" then some (fun _ => Except.error ()) else none)
      ⟨"f", "id1", none⟩ = Except.error ⟨500, "Internal server error"⟩ ∧
    workspaceLoop (fun _ => [ModelDecision.toolCalls [⟨"f", "id1", none⟩]])
      (fun name => if name = "f" then some (fun _ => Except.error ()) else none) 1
      { messages := [] } =
      some (Except.error ⟨500, "Internal server error"⟩) := by
  have h := c9_tool_failure_aborts_request
    (fun name => if name = "f" then some (fun _ => Except.error ()) else none)
    ⟨"f", "id1", none⟩ (fun _ => Except.error ()) { messages := [] } rfl rfl
  exact ⟨h.1, h.2.2 (fun _ => [ModelDecision.toolCalls [⟨"f", "id1", none⟩]]) 0 rfl⟩

/-- C4: in the OAuth2 arm, a cached expiration not earlier than now
keeps the cache and makes zero token-endpoint requests, the cached
token becoming the bearer of the upstream POST; an expiration earlier
than now makes exactly one token fetch, updating the cache, before the
upstream POST is issued with the new token. -/
theorem c4_oauth_refresh_on_expiry
    (fetch : Except Unit (String × Int)) (now : Int) (td : TokenData)
    (post : String → Except HttpFailure HttpResponse) :
    (¬ td.expiration < now →
      oauthEnsureToken fetch now td = Except.ok (td, td.token, 0) ∧
      clientCredentialsCall fetch now td post =
        (match sendAndRead (post td.token) with
         | Except.ok s => Except.ok (s, td, 0)
         | Except.error e => Except.error e)) ∧
    (∀ t e, td.expiration < now → fetch = Except.ok (t, e) →
      oauthEnsureToken fetch now td = Except.ok (⟨t, e⟩, t, 1) ∧
      clientCredentialsCall fetch now td post =
        (match sendAndRead (post t) with
         | Except.ok s => Except.ok (s, ⟨t, e⟩, 1)
         | Except.error e2 => Except.error e2)) := by
  constructor
  · intro hnot
    have h1 : oauthEnsureToken fetch now td = Except.ok (td, td.token, 0) := by
      simp [oauthEnsureToken, hnot]
    exact ⟨h1, by simp [clientCredentialsCall, h1]⟩
  · intro t e hlt hf
    have h1 : oauthEnsureToken fetch now td = Except.ok (⟨t, e⟩, t, 1) := by
      simp [oauthEnsureToken, hlt, hf]
    exact ⟨h1, by simp [clientCredentialsCall, h1]⟩

/-- Witness for C4: with expiry 100, a call at time 50 reuses the
cached token with zero fetches; a call at time 150 fetches once and
posts with the fresh token. -/
theorem c4_witness :
    clientCredentialsCall (Except.ok ("tokB", 200)) 50 ⟨"tokA", 100⟩
      (fun token => Except.ok ⟨200, Except.ok token⟩) =
      Except.ok ("tokA", ⟨"tokA", 100⟩, 0) ∧
    clientCredentialsCall (Except.ok ("tokB", 200)) 150 ⟨"tokA", 100⟩
      (fun token => Except.ok ⟨200, Except.ok token⟩) =
      Except.ok ("tokB", ⟨"tokB", 200⟩, 1) := by
  constructor
  · have h := (c4_oauth_refresh_on_expiry (Except.ok ("tokB", 200)) 50 ⟨"tokA", 100⟩
      (fun token => Except.ok ⟨200, Except.ok token⟩)).1 (by decide)
    simpa [sendAndRead] using h.2
  · have h := (c4_oauth_refresh_on_expiry (Except.ok ("tokB", 200)) 150 ⟨"tokA", 100⟩
      (fun token => Except.ok ⟨200, Except.ok token⟩)).2 "tokB" 200 (by decide) rfl
    simpa [sendAndRead] using h.2

/-- C6: evaluation at the failing input. A completed upstream exchange
with status 404 and a readable body returns the body text as a success:
ModelClient::call never consults the response status (error_for_status
is never called), so the non-2xx TransportError the claim describes
does not arise; only send or body-read failures map through
From<HttpError>, to the error's own status when present, else 500. -/
theorem c6_non2xx_body_returned_as_success :
    sendAndRead (Except.ok ⟨404, Except.ok "not found"⟩) = Except.ok "not found" ∧
    (∀ (status : Nat) (text : String),
      sendAndRead (Except.ok ⟨status, Except.ok text⟩) = Except.ok text) ∧
    (∀ e, sendAndRead (Except.error e) = Except.error (errorFromHttp e)) ∧
    errorFromHttp ⟨none, "connection refused"⟩ = ⟨500, "connection refused"⟩ := by
  exact ⟨rfl, fun _ _ => rfl, fun _ => rfl, rfl⟩

/-- C7: Include(S) keeps exactly the tools named in S, Exclude(S)
exactly those not named in S, and the unset filter, which get_filter
turns into Exclude of the empty set, keeps every tool. -/
theorem c7_filter_include_exclude
    (tools : List RTool) (names : List String) (tool : RTool) :
    (tool ∈ list_tools (ToolFilter.Include names) tools ↔
      tool ∈ tools ∧ names.contains tool.name = true) ∧
    (tool ∈ list_tools (ToolFilter.Exclude names) tools ↔
      tool ∈ tools ∧ names.contains tool.name = false) ∧
    get_filter none = ToolFilter.Exclude [] ∧
    list_tools (get_filter none) tools = tools := by
  refine ⟨?_, ?_, rfl, ?_⟩
  · simp [list_tools, List.mem_filter]
  · simp [list_tools, List.mem_filter]
  · simp [list_tools, get_filter]

theorem geminiFoldGo_append (xs : List Message) :
    ∀ (s : List GMessage × Bool) (ys : List Message),
      geminiFoldGo s (xs ++ ys) =
        (geminiFoldGo s xs).bind (fun s2 => geminiFoldGo s2 ys) := by
  induction xs with
  | nil => intro s ys; simp [geminiFoldGo]
  | cons m rest ih =>
      intro s ys
      simp only [List.cons_append, geminiFoldGo]
      cases h : geminiStep s m with
      | some s2 => simp [ih]
      | none => simp

theorem geminiFoldGo_single (s : List GMessage × Bool) (m : Message) :
    geminiFoldGo s [m] = geminiStep s m := by
  cases h : geminiStep s m <;> simp [geminiFoldGo, h]

theorem geminiStep_toolCalls_flag (contents : List GMessage) (lo : Bool)
    (s2 : List GMessage × Bool) (role : Role) (calls : List ToolCall)
    (h : geminiStep (contents, lo) (Message.toolCalls role calls) = some s2) :
    s2.2 = false := by
  cases role with
  | assistant => simp [geminiStep] at h; simp [← h]
  | system => simp [geminiStep] at h
  | tool => simp [geminiStep] at h
  | user => simp [geminiStep] at h

theorem geminiStep_text_flag (contents : List GMessage) (lo : Bool)
    (s2 : List GMessage × Bool) (role : Role) (content : String)
    (h : geminiStep (contents, lo) (Message.textMessage role content) = some s2) :
    s2.2 = false := by
  cases role <;> simp [geminiStep] at h <;> simp [← h]

theorem geminiStep_toolOutput_flag (contents : List GMessage) (lo : Bool)
    (s2 : List GMessage × Bool) (ty : ToolOutputType) (cid out : String)
    (h : geminiStep (contents, lo) (Message.toolOutput ty cid out) = some s2) :
    s2.2 = true := by
  cases lo with
  | false => simp [geminiStep] at h; simp [← h]
  | true =>
      cases contents with
      | nil => simp [geminiStep] at h
      | cons last rest => simp [geminiStep] at h; simp [← h]

/-- C3 (amended): in the Gemini request translation, a ToolOutput
immediately following a ToolCalls-producing entry starts a NEW
function-role content entry (the ToolCalls arm clears last_output), a
ToolOutput following a TextMessage also starts a new function-role
entry, and only a ToolOutput immediately following another ToolOutput
is appended as an additional part on that preceding function-role
entry. -/
theorem c3_tool_output_placement :
    (∀ (pre : List Message) (calls : List ToolCall) (ty : ToolOutputType) (cid out : String)
       (st : List GMessage × Bool),
       geminiFoldGo ([], false) (pre ++ [Message.toolCalls Role.assistant calls]) = some st →
       geminiContents (pre ++ [Message.toolCalls Role.assistant calls,
           Message.toolOutput ty cid out]) =
         some (st.1.reverse ++ [⟨GRole.function, [outputPart cid out]⟩])) ∧
    (∀ (pre : List Message) (role : Role) (content : String) (ty : ToolOutputType)
       (cid out : String) (st : List GMessage × Bool),
       geminiFoldGo ([], false) (pre ++ [Message.textMessage role content]) = some st →
       geminiContents (pre ++ [Message.textMessage role content,
           Message.toolOutput ty cid out]) =
         some (st.1.reverse ++ [⟨GRole.function, [outputPart cid out]⟩])) ∧
    (∀ (pre : List Message) (ty1 : ToolOutputType) (cid1 out1 : String)
       (ty2 : ToolOutputType) (cid2 out2 : String)
       (last : GMessage) (rest : List GMessage) (b : Bool),
       geminiFoldGo ([], false) (pre ++ [Message.toolOutput ty1 cid1 out1]) =
         some (last :: rest, b) →
       geminiContents (pre ++ [Message.toolOutput ty1 cid1 out1,
           Message.toolOutput ty2 cid2 out2]) =
         some (rest.reverse ++
           [{ last with parts := last.parts ++ [outputPart cid2 out2] }])) := by
  refine ⟨?_, ?_, ?_⟩
  · intro pre calls ty cid out st h
    obtain ⟨contents, flag⟩ := st
    rw [geminiFoldGo_append] at h
    cases h0 : geminiFoldGo ([], false) pre with
    | none => rw [h0] at h; simp at h
    | some s0 =>
        rw [h0] at h
        simp only [Option.some_bind] at h
        rw [geminiFoldGo_single] at h
        obtain ⟨c0, l0⟩ := s0
        have hflag : flag = false := geminiStep_toolCalls_flag c0 l0 _ _ _ h
        subst hflag
        have hfold1 : geminiFoldGo ([], false)
            (pre ++ [Message.toolCalls Role.assistant calls]) = some (contents, false) := by
          rw [geminiFoldGo_append, h0]
          simpa [geminiFoldGo_single] using h
        unfold geminiContents
        rw [show pre ++ [Message.toolCalls Role.assistant calls,
              Message.toolOutput ty cid out] =
            (pre ++ [Message.toolCalls Role.assistant calls]) ++
              [Message.toolOutput ty cid out] by simp]
        rw [geminiFoldGo_append, hfold1]
        simp [geminiFoldGo_single, geminiStep]
  · intro pre role content ty cid out st h
    obtain ⟨contents, flag⟩ := st
    rw [geminiFoldGo_append] at h
    cases h0 : geminiFoldGo ([], false) pre with
    | none => rw [h0] at h; simp at h
    | some s0 =>
        rw [h0] at h
        simp only [Option.some_bind] at h
        rw [geminiFoldGo_single] at h
        obtain ⟨c0, l0⟩ := s0
        have hflag : flag = false := geminiStep_text_flag c0 l0 _ _ _ h
        subst hflag
        have hfold1 : geminiFoldGo ([], false)
            (pre ++ [Message.textMessage role content]) = some (contents, false) := by
          rw [geminiFoldGo_append, h0]
          simpa [geminiFoldGo_single] using h
        unfold geminiContents
        rw [show pre ++ [Message.textMessage role content, Message.toolOutput ty cid out] =
            (pre ++ [Message.textMessage role content]) ++
              [Message.toolOutput ty cid out] by simp]
        rw [geminiFoldGo_append, hfold1]
        simp [geminiFoldGo_single, geminiStep]
  · intro pre ty1 cid1 out1 ty2 cid2 out2 last rest b h
    have hflag : b = true := by
      rw [geminiFoldGo_append] at h
      cases h0 : geminiFoldGo ([], false) pre with
      | none => rw [h0] at h; simp at h
      | some s0 =>
          rw [h0] at h
          simp only [Option.some_bind] at h
          rw [geminiFoldGo_single] at h
          obtain ⟨c0, l0⟩ := s0
          exact geminiStep_toolOutput_flag c0 l0 _ _ _ _ h
    subst hflag
    unfold geminiContents
    rw [show pre ++ [Message.toolOutput ty1 cid1 out1, Message.toolOutput ty2 cid2 out2] =
        (pre ++ [Message.toolOutput ty1 cid1 out1]) ++
          [Message.toolOutput ty2 cid2 out2] by simp]
    rw [geminiFoldGo_append, h]
    simp [geminiFoldGo_single, geminiStep]

/-- Witness for the amended C3: a ToolCalls message then its ToolOutput
translate to two content entries, the second function-role; two
consecutive ToolOutputs after a text message merge into one entry. -/
theorem c3_witness :
    geminiContents [Message.toolCalls Role.assistant [⟨"f", "id1", none⟩],
        Message.toolOutput ToolOutputType.functionCallOutput "id1" "ok"] =
      some [⟨GRole.model, [GPart.functionCall "f" none]⟩,
            ⟨GRole.function, [outputPart "id1" "ok"]⟩] ∧
    geminiContents [Message.textMessage Role.user "hi",
        Message.toolOutput ToolOutputType.functionCallOutput "id1" "o1",
        Message.toolOutput ToolOutputType.functionCallOutput "id2" "o2"] =
      some [⟨GRole.user, [GPart.text "hi"]⟩,
            ⟨GRole.function, [outputPart "id1" "o1", outputPart "id2" "o2"]⟩] := by
  constructor
  · have h := c3_tool_output_placement.1 [] [⟨"f", "id1", none⟩]
      ToolOutputType.functionCallOutput "id1" "ok"
      ([⟨GRole.model, [GPart.functionCall "f" none]⟩], false) rfl
    simpa using h
  · have h := c3_tool_output_placement.2.2
      [Message.textMessage Role.user "hi"]
      ToolOutputType.functionCallOutput "id1" "o1"
      ToolOutputType.functionCallOutput "id2" "o2"
      ⟨GRole.function, [outputPart "id1" "o1"]⟩ [⟨GRole.user, [GPart.text "hi"]⟩] true rfl
    simpa using h

/-- Counterexample to C3 as stated: translating a ToolCalls message
followed by its ToolOutput yields TWO content entries, the output in a
separate function-role entry, not appended onto the ToolCalls entry
(which would yield one entry). -/
theorem c3_counterexample :
    geminiContents [Message.toolCalls Role.assistant [⟨"f", "id1", none⟩],
        Message.toolOutput ToolOutputType.functionCallOutput "id1" "ok"] =
      some [⟨GRole.model, [GPart.functionCall "f" none]⟩,
            ⟨GRole.function, [outputPart "id1" "ok"]⟩] ∧
    (geminiContents [Message.toolCalls Role.assistant [⟨"f", "id1", none⟩],
        Message.toolOutput ToolOutputType.functionCallOutput "id1" "ok"]).map List.length =
      some 2 := by
  exact ⟨rfl, rfl⟩

mutual

theorem remove_keys_clean : ∀ entries, objHasBannedObj (remove_keys entries) = false
  | [] => rfl
  | (k, v) :: rest => by
      by_cases hk : (k = "$schema" || k = "additionalProperties") = true
      · simp only [remove_keys, hk, if_true]
        exact remove_keys_clean rest
      · simp only [remove_keys, hk, if_false, Bool.false_eq_true]
        simp only [objHasBannedObj, bannedKey, Bool.or_eq_false_iff]
        simp only [Bool.or_eq_true, decide_eq_true_eq] at hk
        push_neg at hk
        refine ⟨⟨?_, ?_⟩, remove_keys_clean rest⟩
        · simp [hk.1, hk.2]
        · exact removeKeysValue_clean v

theorem removeKeysValue_clean : ∀ v, valueHasBannedObj (removeKeysValue v) = false
  | Json.obj entries => by
      simp only [removeKeysValue, valueHasBannedObj]
      exact remove_keys_clean entries
  | Json.null => rfl
  | Json.bool _ => rfl
  | Json.num _ => rfl
  | Json.str _ => rfl
  | Json.arr _ => rfl

end

/-- C8 (amended): the schema remove_keys sends contains no "$schema"
or "additionalProperties" key at any depth reachable through object
values; depths inside arrays are not traversed and keys there survive
(see the counterexample). -/
theorem c8_remove_keys_strips_object_depths (entries : List (String × Json)) :
    objHasBannedObj (remove_keys entries) = false :=
  remove_keys_clean entries

/-- Counterexample to C8 as stated: a "$schema" key nested inside an
array value survives remove_keys, so the sent parameters object can
hold a banned key at array depth. -/
theorem c8_counterexample :
    remove_keys [("x", Json.arr [Json.obj [("$schema", Json.null)]])] =
      [("x", Json.arr [Json.obj [("$schema", Json.null)]])] ∧
    objHasBannedDeep (remove_keys
      [("x", Json.arr [Json.obj [("$schema", Json.null)]])]) = true := by
  exact ⟨rfl, rfl⟩

theorem partsOfDecisions_append :
    ∀ xs ys : List ModelDecision,
      partsOfDecisions (xs ++ ys) = partsOfDecisions xs ++ partsOfDecisions ys := by
  intro xs ys
  induction xs with
  | nil => simp [partsOfDecisions]
  | cons d rest ih => simp [partsOfDecisions, ih]

theorem decisionsGo_spec (ids : Nat → String) :
    ∀ (parts : List GPart) (acc : List ModelDecision) (flag : Bool) (n : Nat)
      (ds : List ModelDecision),
      (flag = true → ∃ calls acc2, acc = ModelDecision.toolCalls calls :: acc2 ∧ calls ≠ []) →
      (flag = false → headNotCalls acc) →
      (∀ d ∈ acc, nonEmptyCalls d = true) →
      List.Chain' NotBothCalls acc →
      decisionsGo ids parts acc flag n = some ds →
      partsOfDecisions ds = partsOfDecisions acc.reverse ++ parts ∧
      (∀ d ∈ ds, nonEmptyCalls d = true) ∧
      List.Chain' NotBothCalls ds := by
  intro parts
  induction parts with
  | nil =>
      intro acc flag n ds _ _ hNE hChain h
      simp only [decisionsGo, Option.some_inj] at h
      subst h
      refine ⟨by simp, ?_, ?_⟩
      · intro d hd
        exact hNE d (List.mem_reverse.mp hd)
      · refine List.chain'_reverse.mpr (hChain.imp ?_)
        intro a b hab hba
        exact hab ⟨hba.2, hba.1⟩
  | cons part rest ih =>
      intro acc flag n ds hTrue hFalse hNE hChain h
      cases part with
      | text t =>
          simp only [decisionsGo] at h
          have hres := ih (ModelDecision.textMessage t :: acc) false n ds
            (by intro hf; exact absurd hf (by simp))
            (by intro _; exact rfl)
            (by
              intro d hd
              rcases List.mem_cons.mp hd with hd | hd
              · subst hd; rfl
              · exact hNE d hd)
            (by
              refine List.chain'_cons'.mpr ⟨?_, hChain⟩
              intro b _ hb
              simp [isToolCallsD] at hb)
            h
          refine ⟨?_, hres.2.1, hres.2.2⟩
          rw [hres.1]
          simp [partsOfDecisions_append, partsOfDecisions, decToParts]
      | functionCall name args =>
          cases flag with
          | false =>
              simp only [decisionsGo, if_neg (by simp : ¬false = true)] at h
              have hhead := hFalse rfl
              have hres := ih
                (ModelDecision.toolCalls [⟨name, ids n, args⟩] :: acc) true (n + 1) ds
                (by intro _; exact ⟨[⟨name, ids n, args⟩], acc, rfl, by simp⟩)
                (by intro hf; exact absurd hf (by simp))
                (by
                  intro d hd
                  rcases List.mem_cons.mp hd with hd | hd
                  · subst hd; rfl
                  · exact hNE d hd)
                (by
                  refine List.chain'_cons'.mpr ⟨?_, hChain⟩
                  intro b hb hcontra
                  cases acc with
                  | nil => simp at hb
                  | cons d acc2 =>
                      simp only [List.head?_cons, Option.mem_def, Option.some_inj] at hb
                      subst hb
                      simp only [headNotCalls] at hhead
                      rw [hhead] at hcontra
                      exact absurd hcontra.2 (by simp))
                h
              refine ⟨?_, hres.2.1, hres.2.2⟩
              rw [hres.1]
              simp [partsOfDecisions_append, partsOfDecisions, decToParts]
          | true =>
              obtain ⟨calls, acc2, hacc, hcne⟩ := hTrue rfl
              subst hacc
              have hstep : decisionsGo ids (GPart.functionCall name args :: rest)
                  (ModelDecision.toolCalls calls :: acc2) true n =
                decisionsGo ids rest
                  (ModelDecision.toolCalls (calls ++ [⟨name, ids n, args⟩]) :: acc2)
                  true (n + 1) := rfl
              rw [hstep] at h
              have hchain2 := List.chain'_cons'.mp hChain
              have hres := ih
                (ModelDecision.toolCalls (calls ++ [⟨name, ids n, args⟩]) :: acc2) true (n + 1) ds
                (by intro _; exact ⟨calls ++ [⟨name, ids n, args⟩], acc2, rfl, by simp⟩)
                (by intro hf; exact absurd hf (by simp))
                (by
                  intro d hd
                  rcases List.mem_cons.mp hd with hd | hd
                  · subst hd; simp [nonEmptyCalls]
                  · exact hNE d (List.mem_cons_of_mem _ hd))
                (by
                  refine List.chain'_cons'.mpr ⟨?_, hchain2.2⟩
                  intro b hb
                  exact hchain2.1 b hb)
                h
              refine ⟨?_, hres.2.1, hres.2.2⟩
              rw [hres.1]
              simp [partsOfDecisions_append, partsOfDecisions, decToParts]
      | functionOutput fname rname content =>
          simp [decisionsGo] at h

/-- C10: an accepted Gemini candidate's decision list flattens back to
the candidate's parts in order (so each maximal run of consecutive
functionCall parts lands in exactly one ToolCalls decision, a text part
ending the run), every ToolCalls decision is non-empty, and no two
adjacent decisions are both ToolCalls. -/
theorem c10_decision_grouping
    (ids : Nat → String) (parts : List GPart) (ds : List ModelDecision)
    (h : geminiDecisions ids parts = some ds) :
    partsOfDecisions ds = parts ∧
    (∀ d ∈ ds, nonEmptyCalls d = true) ∧
    List.Chain' NotBothCalls ds := by
  have hres := decisionsGo_spec ids parts [] false 0 ds
    (by intro hf; exact absurd hf (by simp))
    (by intro _; exact trivial)
    (by intro d hd; exact absurd hd (List.not_mem_nil d))
    List.chain'_nil
    h
  simpa [partsOfDecisions] using hres

/-- Witness for C10 at four parts forming the runs [f g], text, [h]:
two ToolCalls decisions separated by the text decision, flattening back
to the input parts. -/
theorem c10_witness :
    partsOfDecisions
      [ModelDecision.toolCalls [⟨"f", "0", none⟩, ⟨"g", "1", none⟩],
       ModelDecision.textMessage "done",
       ModelDecision.toolCalls [⟨"h", "2", none⟩]] =
      [GPart.functionCall "f" none, GPart.functionCall "g" none, GPart.text "done",
       GPart.functionCall "h" none] ∧
    (∀ d ∈ [ModelDecision.toolCalls [⟨"f", "0", none⟩, ⟨"g", "1", none⟩],
       ModelDecision.textMessage "done",
       ModelDecision.toolCalls [⟨"h", "2", none⟩]], nonEmptyCalls d = true) ∧
    List.Chain' NotBothCalls
      [ModelDecision.toolCalls [⟨"f", "0", none⟩, ⟨"g", "1", none⟩],
       ModelDecision.textMessage "done",
       ModelDecision.toolCalls [⟨"h", "2", none⟩]] := by
  exact c10_decision_grouping (fun n => toString n)
    [GPart.functionCall "f" none, GPart.functionCall "g" none, GPart.text "done",
     GPart.functionCall "h" none]
    [ModelDecision.toolCalls [⟨"f", "0", none⟩, ⟨"g", "1", none⟩],
     ModelDecision.textMessage "done",
     ModelDecision.toolCalls [⟨"h", "2", none⟩]]
    rfl
